import Mathlib

/-!
The MEMCMP key comparator of ODS (`ods/src/key_memcmp.c`).

A shallow embedding of the comparator's functions `cmp`, `to_str`, `from_str`,
`size` and `str_size`, together with the C library routines they call
(`memcmp`, `snprintf` and `sscanf` with the one format string `"%02hhX"`).

Conventions of the embedding

* A byte (`unsigned char`) and a character (`char`) are natural numbers; where C
  converts to `unsigned char` the value is reduced modulo `256`.
* Memory is a function from offsets to bytes (`Mem`); a write is `Mem.write`.
* `size_t` is 64 bits wide: arithmetic on it is reduced modulo `2 ^ 64`.
* The `len` field of a key is a 16 bit unsigned integer, so in `cmp` the
  operands of `av->len - bv->len` are promoted to `int` and the subtraction is
  the exact signed one; `kv->len++` in `from_str` is reduced modulo `2 ^ 16`.
* The C standard fixes the sign of a result of `memcmp` and leaves its magnitude
  to the library: the magnitude is a parameter (`MemcmpMag`) of `memcmp` and of
  `cmp`, and what is proved of `cmp` holds for every choice of it.
-/

namespace KeyMemcmp

/-! ## Memory and keys -/

/-- Byte addressed memory, seen from some base pointer. -/
abbrev Mem := Nat → Nat

/-- The store `m[i] = v`. -/
def Mem.write (m : Mem) (i v : Nat) : Mem :=
  fun j => if j = i then v else m j

/-- The `n` bytes `m[i], m[i+1], ..., m[i+n-1]`. -/
def Mem.read (m : Mem) (i : Nat) : Nat → List Nat
  | 0 => []
  | n + 1 => m i :: Mem.read m (i + 1) n

/-- The memory holding the bytes of `l` from offset `0` on (and `0` elsewhere). -/
def Mem.ofList (l : List Nat) : Mem :=
  fun i => l.getD i 0

/-- The key value `struct ods_key_value_s { uint16_t len; unsigned char value[0]; }`:
the length field and the bytes that follow it. -/
structure ods_key_value where
  len : Nat
  value : Mem

/-- The key whose bytes are `l`. -/
def mkKey (l : List Nat) : ods_key_value :=
  { len := l.length, value := Mem.ofList l }

/-- The byte sequence of a key: its first `len` bytes. -/
def ods_key_value.bytes (kv : ods_key_value) : List Nat :=
  Mem.read kv.value 0 kv.len

/-- Modulus of `size_t`. -/
def SIZE_MOD : Nat := 2 ^ 64

/-- Modulus of the `uint16_t` length field of a key. -/
def LEN_MOD : Nat := 2 ^ 16

/-! ## `cmp` -/

/-- The difference of the first pair of bytes that differ among the `n` bytes
`s1[i], s1[i+1], ...` and `s2[i], s2[i+1], ...`, the bytes read as
`unsigned char` from the lowest address on; zero when there is none. -/
def first_diff_at (s1 s2 : Mem) (i : Nat) : Nat → Int
  | 0 => 0
  | n + 1 =>
    if s1 i = s2 i then first_diff_at s1 s2 (i + 1) n
    else (s1 i : Int) - (s2 i : Int)

/-- What the C standard leaves to the library in `memcmp`: the magnitude of a
result that is not zero. `mag s1 s2 n + 1` is the magnitude the library returns
for the call `memcmp(s1, s2, n)`; it need not be the difference of two bytes,
and it need not be the same when the arguments are swapped. -/
abbrev MemcmpMag := Mem → Mem → Nat → Nat

/-- The C library function `memcmp(s1, s2, n)`: zero when the first `n` bytes of
`s1` and `s2` are the same, and otherwise a number that has the sign of the
difference of the first pair of bytes that differ, and the magnitude the
library chooses. -/
def memcmp (mag : MemcmpMag) (s1 s2 : Mem) (n : Nat) : Int :=
  let d := first_diff_at s1 s2 0 n
  if d = 0 then 0
  else if d < 0 then -((mag s1 s2 n : Int) + 1)
  else (mag s1 s2 n : Int) + 1

/-- The function `cmp` of `key_memcmp.c`, linked with a C library whose `memcmp`
returns the magnitudes `mag`. -/
def cmp (mag : MemcmpMag) (a b : ods_key_value) : Int :=
  let av := a
  let bv := b
  let cmp_len := av.len
  let cmp_len := if cmp_len > bv.len then bv.len else cmp_len
  let res := memcmp mag av.value bv.value cmp_len
  if res = 0 then (av.len : Int) - (bv.len : Int)
  else res

/-- Lexicographic order on byte sequences, bytes compared as unsigned numbers,
a proper prefix coming before the longer sequence. -/
def lex_lt : List Nat → List Nat → Prop
  | [], [] => False
  | [], _ :: _ => True
  | _ :: _, [] => False
  | x :: xs, y :: ys => x < y ∨ (x = y ∧ lex_lt xs ys)

instance lex_lt_decidable : (l1 l2 : List Nat) → Decidable (lex_lt l1 l2)
  | [], [] => isFalse (by simp [lex_lt])
  | [], _ :: _ => isTrue (by simp [lex_lt])
  | _ :: _, [] => isFalse (by simp [lex_lt])
  | x :: xs, y :: ys =>
    match lex_lt_decidable xs ys with
    | isTrue h => if hxy : x < y then isTrue (Or.inl hxy)
        else if he : x = y then isTrue (Or.inr ⟨he, h⟩)
        else isFalse (by simp [lex_lt, hxy, he])
    | isFalse h => if hxy : x < y then isTrue (Or.inl hxy)
        else isFalse (by simp [lex_lt, hxy, h])

/-! ## `to_str` -/

/-- The uppercase hexadecimal digit (a character of `0`-`9`, `A`-`F`) of `d < 16`. -/
def hex_digit (d : Nat) : Nat :=
  if d < 10 then 48 + d else 55 + d

/-- The characters the conversion `%02hhX` produces for the argument `v`: the
argument is converted to `unsigned char` and printed in uppercase hexadecimal,
padded with zeros to the width two. -/
def fmt_02hhX (v : Nat) : List Nat :=
  let u := v % 256
  [hex_digit (u / 16), hex_digit (u % 16)]

/-- The stores `m[s] = cs[0], m[s+1] = cs[1], ...`. -/
def Mem.writeList (m : Mem) (s : Nat) : List Nat → Mem
  | [] => m
  | c :: cs => Mem.writeList (m.write s c) (s + 1) cs

/-- The call `snprintf(s, n, "%02hhX", v)` of the C library: when `n` is not zero
it stores at most `n - 1` characters of the output followed by a terminating
zero; it returns the number of characters the whole output has, truncated or
not. The result is the returned count and the memory after the call. -/
def snprintf_02hhX (m : Mem) (s n v : Nat) : Int × Mem :=
  let out := fmt_02hhX v
  let m1 := if n = 0 then m else Mem.writeList m s (out.take (n - 1) ++ [0])
  ((out.length : Int), m1)

/-- Conversion of an `int` to `size_t`. -/
def size_t_of_int (x : Int) : Nat :=
  (x % (SIZE_MOD : Int)).toNat

/-- The loop of `to_str`, with `n` iterations left to do: `i` is the loop index,
`s` the write pointer, `len` the remaining capacity (a `size_t`), `m` the memory
of the destination. -/
def to_str_loop (kv : ods_key_value) : Nat → Nat → Nat → Nat → Mem → Mem
  | 0, _, _, _, m => m
  | n + 1, i, s, len, m =>
    let r := snprintf_02hhX m s len (kv.value i)
    let cnt := r.1
    to_str_loop kv n (i + 1) (s + cnt.toNat) (size_t_of_int ((len : Int) - cnt)) r.2

/-- The function `to_str` of `key_memcmp.c`: `m` is the memory `str` points into,
`str` the destination pointer, `len` its capacity. The result is the returned
pointer and the memory after the call. -/
def to_str (key : ods_key_value) (m : Mem) (str len : Nat) : Nat × Mem :=
  let kv := key
  let s := str
  (str, to_str_loop kv kv.len 0 s len m)

/-- The hexadecimal rendering of the `n` bytes `kv.value[i], ..., kv.value[i+n-1]`:
the two characters of each byte, in byte order. -/
def hex_string (kv : ods_key_value) (i : Nat) : Nat → List Nat
  | 0 => []
  | n + 1 => fmt_02hhX (kv.value i) ++ hex_string kv (i + 1) n

/-! ## `from_str` -/

/-- The C library predicate `isspace` in the C locale. -/
def isspace (c : Nat) : Bool :=
  c == 32 || (9 ≤ c && c ≤ 13)

/-- The value of a hexadecimal digit character, of either case. -/
def hexval (c : Nat) : Option Nat :=
  if 48 ≤ c ∧ c ≤ 57 then some (c - 48)
  else if 65 ≤ c ∧ c ≤ 70 then some (c - 55)
  else if 97 ≤ c ∧ c ≤ 102 then some (c - 87)
  else none

/-- The call `sscanf(str, "%02hhX", &b)` of the C library. `str` is the content of
the object the pointer points into, from the pointer to the end of the object;
`b` is the value the variable holds before the call. The conversion skips white
space, then takes an optionally signed hexadecimal number of at most two
characters (the field width), an `0x` prefix included, and stores it as an
`unsigned char`. The result is `none` when the call reads past the end of the
object; otherwise it is the returned `int` with the value of `b` after the call:
`1` when a number was stored, `0` when the input does not start a number, and
`EOF`, that is `-1`, when the string ends before any number. -/
def sscanf_02hhX (str : List Nat) (b : Nat) : Option (Int × Nat) :=
  match str.dropWhile isspace with
  | [] => none
  | c0 :: rest =>
    if c0 = 0 then some (-1, b)
    else if c0 = 43 ∨ c0 = 45 then
      match rest with
      | [] => none
      | c1 :: _ =>
        match hexval c1 with
        | none => some (0, b)
        | some d => some (1, if c0 = 45 then (256 - d) % 256 else d)
    else
      match hexval c0 with
      | none => some (0, b)
      | some d0 =>
        match rest with
        | [] => none
        | c1 :: _ =>
          if c0 = 48 ∧ (c1 = 120 ∨ c1 = 88) then some (1, 0)
          else
            match hexval c1 with
            | none => some (1, d0)
            | some d1 => some (1, 16 * d0 + d1)

/-- The `do ... while` loop of `from_str`, run for at most `fuel` iterations. `i`
counts the iterations done, so the read pointer is `str + 2 * i`; `junk i` is
the indeterminate value the uninitialised local `b` has in iteration `i`. The
result is `none` when a scan reads past the end of the object `str` points into
(or when the fuel is used up). -/
def from_str_loop (str : List Nat) (junk : Nat → Nat) :
    Nat → Nat → ods_key_value → Option ods_key_value
  | 0, _, _ => none
  | fuel + 1, i, kv =>
    match sscanf_02hhX (str.drop (2 * i)) (junk i) with
    | none => none
    | some r =>
      let cnt := size_t_of_int r.1
      let b := r.2
      let kv1 : ods_key_value :=
        if cnt > 0 then { len := (kv.len + 1) % LEN_MOD, value := kv.value.write kv.len b }
        else kv
      if cnt > 0 then from_str_loop str junk fuel (i + 1) kv1 else some kv1

/-- The function `from_str` of `key_memcmp.c`. `key` is the key before the call,
`str` the content of the object the text pointer points into (the text, its
terminating zero and whatever follows it in the object). The result is the
returned `int` and the key after the call, or `none` when the function reads
past the end of that object. Every iteration that does not read past the end
finds the read pointer inside the object, so `str.length + 1` iterations are
enough (`from_str_loop_fuel`). -/
def from_str (key : ods_key_value) (str : List Nat) (junk : Nat → Nat) :
    Option (Int × ods_key_value) :=
  let kv : ods_key_value := { key with len := 0 }
  (from_str_loop str junk (str.length + 1) 0 kv).map (fun k => ((0 : Int), k))

/-- The C string `t`, as the object that holds it: its characters and the
terminating zero. -/
def cstr (t : String) : List Nat :=
  t.toList.map Char.toNat ++ [0]

/-- The decoding the specification describes: the bytes of the longest prefix of
`text` made of pairs of hexadecimal digits, each pair `c0 c1` giving the byte
`16 * value c0 + value c1`. -/
def hex_pairs_decode : List Nat → List Nat
  | c0 :: c1 :: rest =>
    match hexval c0, hexval c1 with
    | some d0, some d1 => (16 * d0 + d1) :: hex_pairs_decode rest
    | _, _ => []
  | _ => []

/-! ## `size` and `str_size` -/

/-- The function `size` of `key_memcmp.c`: `-1` converted to `size_t`. -/
def size : Nat :=
  size_t_of_int (-1)

/-- The function `str_size` of `key_memcmp.c`. -/
def str_size (key : ods_key_value) : Nat :=
  let kv := key
  size_t_of_int ((kv.len : Int) + 1)

/-! ## C strings in memory -/

/-- The C string that starts at `m[s]` has `n` characters: `n` characters that are
not zero, then the terminating zero. -/
def c_strlen_is (m : Mem) (s n : Nat) : Prop :=
  (∀ p, p < n → m (s + p) ≠ 0) ∧ m (s + n) = 0

instance c_strlen_is_decidable (m : Mem) (s n : Nat) : Decidable (c_strlen_is m s n) := by
  unfold c_strlen_is
  exact inferInstance

/-- The C library function `strcmp` on the string at `m1[s1]` and the string at
`m2[s2]`: the characters are compared as `unsigned char` up to the first pair
that differs or the terminating zero, and the result is the difference of that
pair. At most `fuel` pairs are looked at (`none` beyond that). -/
def strcmp_at (m1 m2 : Mem) (s1 s2 : Nat) : Nat → Option Int
  | 0 => none
  | fuel + 1 =>
    if m1 s1 ≠ m2 s2 then some ((m1 s1 : Int) - (m2 s2 : Int))
    else if m1 s1 = 0 then some 0
    else strcmp_at m1 m2 (s1 + 1) (s2 + 1) fuel

/-! ## Lemmas on memory and on `memcmp` -/

theorem Mem.read_length (m : Mem) (i n : Nat) : (Mem.read m i n).length = n := by
  induction n generalizing i with
  | zero => rfl
  | succ n ih => simp [Mem.read, ih]

theorem Mem.read_eq_iff (f g : Mem) (i n : Nat) :
    Mem.read f i n = Mem.read g i n ↔ ∀ j, j < n → f (i + j) = g (i + j) := by
  induction n generalizing i with
  | zero => simp [Mem.read]
  | succ n ih =>
    simp only [Mem.read, List.cons.injEq, ih]
    constructor
    · rintro ⟨h0, h⟩ j hj
      cases j with
      | zero => simpa using h0
      | succ j =>
        have := h j (by omega)
        rwa [show i + (j + 1) = i + 1 + j by omega]
    · intro h
      refine ⟨by simpa using h 0 (by omega), fun j hj => ?_⟩
      have := h (j + 1) (by omega)
      rwa [show i + (j + 1) = i + 1 + j by omega] at this

theorem first_diff_at_eq_zero_iff (f g : Mem) (i n : Nat) :
    first_diff_at f g i n = 0 ↔ Mem.read f i n = Mem.read g i n := by
  induction n generalizing i with
  | zero => simp [first_diff_at, Mem.read]
  | succ n ih =>
    simp only [first_diff_at, Mem.read, List.cons.injEq]
    by_cases h : f i = g i
    · simp [h, ih]
    · simp only [h, if_false, false_and, iff_false]
      intro e
      exact h (by omega)

theorem first_diff_at_neg (f g : Mem) (i n : Nat) :
    first_diff_at f g i n = - first_diff_at g f i n := by
  induction n generalizing i with
  | zero => simp [first_diff_at]
  | succ n ih =>
    simp only [first_diff_at]
    by_cases h : f i = g i
    · simp only [h, if_true]
      rw [ih (i + 1)]
    · have h2 : ¬ g i = f i := fun e => h e.symm
      simp only [h, h2, if_false]
      omega

/-- The result of `memcmp` is zero, negative or positive exactly when the
difference of the first pair of bytes that differ is. -/
theorem memcmp_sign (mag : MemcmpMag) (f g : Mem) (n : Nat) :
    (memcmp mag f g n = 0 ↔ first_diff_at f g 0 n = 0) ∧
    (memcmp mag f g n < 0 ↔ first_diff_at f g 0 n < 0) ∧
    (0 < memcmp mag f g n ↔ 0 < first_diff_at f g 0 n) := by
  simp only [memcmp]
  split_ifs with h1 h2
  · rw [h1]; simp
  · refine ⟨?_, ?_, ?_⟩ <;> constructor <;> intro h <;> omega
  · refine ⟨?_, ?_, ?_⟩ <;> constructor <;> intro h <;> omega

theorem cmp_eq (mag : MemcmpMag) (a b : ods_key_value) :
    cmp mag a b = if memcmp mag a.value b.value (min a.len b.len) = 0
      then (a.len : Int) - (b.len : Int)
      else memcmp mag a.value b.value (min a.len b.len) := by
  have hmin : (if a.len > b.len then b.len else a.len) = min a.len b.len := by
    by_cases h : a.len > b.len
    · rw [if_pos h, Nat.min_eq_right (by omega)]
    · rw [if_neg h, Nat.min_eq_left (by omega)]
  simp only [cmp, hmin]

/-- The sign of the comparison from offset `i` on, with `la` and `lb` bytes left. -/
theorem cmp_at_neg_iff (f g : Mem) (i la lb : Nat) :
    (if first_diff_at f g i (min la lb) = 0 then (la : Int) - (lb : Int)
      else first_diff_at f g i (min la lb)) < 0
      ↔ lex_lt (Mem.read f i la) (Mem.read g i lb) := by
  induction la generalizing i lb with
  | zero =>
    cases lb with
    | zero => simp [first_diff_at, Mem.read, lex_lt]
    | succ lb =>
      simp only [Nat.zero_min, first_diff_at, Mem.read, lex_lt, if_true, iff_true]
      omega
  | succ la ih =>
    cases lb with
    | zero =>
      simp only [Nat.min_zero, first_diff_at, Mem.read, lex_lt, if_true, iff_false]
      omega
    | succ lb =>
      have hmin : min (la + 1) (lb + 1) = min la lb + 1 := by
        simp [Nat.min_def]; split <;> rfl
      simp only [hmin, first_diff_at, Mem.read, lex_lt]
      by_cases h : f i = g i
      · have := ih (i + 1) lb
        simp only [h, if_true, lt_self_iff_false, true_and, false_or]
        rw [← this]
        have e : ((la + 1 : Nat) : Int) - ((lb + 1 : Nat) : Int) = (la : Int) - (lb : Int) := by
          omega
        rw [e]
      · have hne : (f i : Int) - (g i : Int) ≠ 0 := by omega
        simp only [h, if_false, hne, false_and, or_false]
        omega

theorem cmp_neg_iff (mag : MemcmpMag) (a b : ods_key_value) :
    cmp mag a b < 0 ↔ lex_lt a.bytes b.bytes := by
  rw [cmp_eq]
  have hs := memcmp_sign mag a.value b.value (min a.len b.len)
  have hl := cmp_at_neg_iff a.value b.value 0 a.len b.len
  rw [ods_key_value.bytes, ods_key_value.bytes, ← hl]
  by_cases hz : first_diff_at a.value b.value 0 (min a.len b.len) = 0
  · rw [if_pos (hs.1.2 hz), if_pos hz]
  · rw [if_neg (fun h => hz (hs.1.1 h)), if_neg hz]
    exact hs.2.1

theorem cmp_pos_iff (mag : MemcmpMag) (a b : ods_key_value) :
    0 < cmp mag a b ↔ lex_lt b.bytes a.bytes := by
  rw [cmp_eq]
  have hs := memcmp_sign mag a.value b.value (min a.len b.len)
  have hl := cmp_at_neg_iff b.value a.value 0 b.len a.len
  rw [Nat.min_comm b.len a.len, first_diff_at_neg b.value a.value 0 (min a.len b.len)] at hl
  rw [ods_key_value.bytes, ods_key_value.bytes, ← hl]
  by_cases hz : first_diff_at a.value b.value 0 (min a.len b.len) = 0
  · rw [if_pos (hs.1.2 hz), hz]
    simp only [neg_zero, if_true]
    omega
  · rw [if_neg (fun h => hz (hs.1.1 h)), if_neg (fun h => hz (by omega))]
    rw [hs.2.2]
    omega

theorem cmp_eq_zero_iff (mag : MemcmpMag) (a b : ods_key_value) :
    cmp mag a b = 0 ↔ a.len = b.len ∧ a.bytes = b.bytes := by
  rw [cmp_eq]
  have hs := memcmp_sign mag a.value b.value (min a.len b.len)
  constructor
  · intro h
    by_cases hm : memcmp mag a.value b.value (min a.len b.len) = 0
    · rw [if_pos hm] at h
      have hz := hs.1.1 hm
      have hl : a.len = b.len := by omega
      refine ⟨hl, ?_⟩
      rw [hl, Nat.min_self] at hz
      simp only [ods_key_value.bytes, hl]
      exact (first_diff_at_eq_zero_iff _ _ _ _).1 hz
    · rw [if_neg hm] at h
      exact absurd h hm
  · rintro ⟨hl, hb⟩
    simp only [ods_key_value.bytes, hl] at hb
    have hz : first_diff_at a.value b.value 0 (min a.len b.len) = 0 := by
      rw [hl, Nat.min_self]
      exact (first_diff_at_eq_zero_iff _ _ _ _).2 hb
    rw [if_pos (hs.1.2 hz), hl]
    all_goals omega

/-! ## Lemmas on the lexicographic order -/

theorem lex_lt_irrefl (l : List Nat) : ¬ lex_lt l l := by
  induction l with
  | nil => simp [lex_lt]
  | cons x xs ih => simp [lex_lt, ih]

theorem lex_lt_trans : ∀ (l1 l2 l3 : List Nat), lex_lt l1 l2 → lex_lt l2 l3 → lex_lt l1 l3
  | [], [], _ => by simp [lex_lt]
  | [], _ :: _, [] => by simp [lex_lt]
  | [], _ :: _, _ :: _ => by simp [lex_lt]
  | _ :: _, [], _ => by simp [lex_lt]
  | _ :: _, _ :: _, [] => by simp [lex_lt]
  | x :: xs, y :: ys, z :: zs => by
    simp only [lex_lt]
    rintro (h1 | ⟨h1, t1⟩) (h2 | ⟨h2, t2⟩)
    · exact Or.inl (by omega)
    · exact Or.inl (by omega)
    · exact Or.inl (by omega)
    · exact Or.inr ⟨by omega, lex_lt_trans xs ys zs t1 t2⟩

theorem lex_lt_total : ∀ (l1 l2 : List Nat), lex_lt l1 l2 ∨ l1 = l2 ∨ lex_lt l2 l1
  | [], [] => by simp
  | [], _ :: _ => by simp [lex_lt]
  | _ :: _, [] => by simp [lex_lt]
  | x :: xs, y :: ys => by
    simp only [lex_lt, List.cons.injEq]
    rcases Nat.lt_trichotomy x y with h | h | h
    · exact Or.inl (Or.inl h)
    · rcases lex_lt_total xs ys with t | t | t
      · exact Or.inl (Or.inr ⟨h, t⟩)
      · exact Or.inr (Or.inl ⟨h, t⟩)
      · exact Or.inr (Or.inr (Or.inr ⟨h.symm, t⟩))
    · exact Or.inr (Or.inr (Or.inl h))

/-! ## The order computed by `cmp` -/

/-- C1: for all keys `a` and `b` the sign of `cmp a b` is that of the
lexicographic order of their byte sequences, the bytes read as unsigned numbers
and a proper prefix coming first: `cmp a b < 0` exactly when `a` is the smaller
one, `cmp a b > 0` exactly when `b` is. In particular `[0x02]` compares above
`[0x01, 0xFF]`, and `[0x80]` above `[0x7F]`. -/
theorem cmp_sign_lexicographic (mag : MemcmpMag) (a b : ods_key_value) :
    (cmp mag a b < 0 ↔ lex_lt a.bytes b.bytes) ∧
    (0 < cmp mag a b ↔ lex_lt b.bytes a.bytes) ∧
    0 < cmp mag (mkKey [0x02]) (mkKey [0x01, 0xFF]) ∧
    0 < cmp mag (mkKey [0x80]) (mkKey [0x7F]) :=
  ⟨cmp_neg_iff mag a b, cmp_pos_iff mag a b,
    (cmp_pos_iff mag _ _).2 (by decide), (cmp_pos_iff mag _ _).2 (by decide)⟩

/-- C5: when the first `min a.len b.len` bytes of `a` and `b` are equal, `cmp a b`
is exactly the signed difference `a.len - b.len`; so for a proper prefix `a` of
`b` it is negative, of magnitude `b.len - a.len`. -/
theorem cmp_prefix_length_diff (mag : MemcmpMag) (a b : ods_key_value)
    (h : ∀ i, i < min a.len b.len → a.value i = b.value i) :
    cmp mag a b = (a.len : Int) - (b.len : Int) ∧
    (a.len < b.len → cmp mag a b < 0 ∧ (cmp mag a b).natAbs = b.len - a.len) := by
  have hz : first_diff_at a.value b.value 0 (min a.len b.len) = 0 := by
    rw [first_diff_at_eq_zero_iff, Mem.read_eq_iff]
    intro j hj
    simpa using h j hj
  have hc : cmp mag a b = (a.len : Int) - (b.len : Int) := by
    rw [cmp_eq, if_pos ((memcmp_sign mag _ _ _).1.2 hz)]
  refine ⟨hc, fun hlt => ?_⟩
  rw [hc]
  omega

/-- C5, at the keys `[0x01, 0x02]` and `[0x01, 0x02, 0x03]`: the result is `-1`. -/
theorem cmp_prefix_length_diff_witness :
    cmp (fun _ _ _ => 0) (mkKey [0x01, 0x02]) (mkKey [0x01, 0x02, 0x03]) = -1 :=
  (cmp_prefix_length_diff (fun _ _ _ => 0) (mkKey [0x01, 0x02]) (mkKey [0x01, 0x02, 0x03])
    (by decide)).1.trans (by decide)

/-- C6, as the code has it: for all keys `a` and `b`, `cmp a b` and `cmp b a` have
opposite signs, and one is zero exactly when the other is; when the first
`min a.len b.len` bytes of `a` and `b` are equal, so that the result is the
difference of the lengths, `cmp a b` is the exact negation of `cmp b a`. -/
theorem cmp_sign_negation (mag : MemcmpMag) (a b : ods_key_value) :
    (cmp mag a b < 0 ↔ 0 < cmp mag b a) ∧
    (cmp mag a b = 0 ↔ cmp mag b a = 0) ∧
    (0 < cmp mag a b ↔ cmp mag b a < 0) ∧
    ((∀ i, i < min a.len b.len → a.value i = b.value i) →
      cmp mag a b = - cmp mag b a) := by
  refine ⟨?_, ?_, ?_, fun h => ?_⟩
  · rw [cmp_neg_iff, cmp_pos_iff]
  · rw [cmp_eq_zero_iff, cmp_eq_zero_iff]
    constructor <;> rintro ⟨h1, h2⟩ <;> exact ⟨h1.symm, h2.symm⟩
  · rw [cmp_neg_iff, cmp_pos_iff]
  · have hz : first_diff_at a.value b.value 0 (min a.len b.len) = 0 := by
      rw [first_diff_at_eq_zero_iff, Mem.read_eq_iff]
      intro j hj
      simpa using h j hj
    have hz2 : first_diff_at b.value a.value 0 (min b.len a.len) = 0 := by
      rw [Nat.min_comm, first_diff_at_neg, hz]
      rfl
    rw [cmp_eq, cmp_eq, if_pos ((memcmp_sign mag _ _ _).1.2 hz),
      if_pos ((memcmp_sign mag _ _ _).1.2 hz2)]
    omega

/-- C6 as amended, at the keys `[0x01, 0x02]` and `[0x01, 0x02, 0x03]`, which
agree on their first two bytes: the results are `-1` and `1`. -/
theorem cmp_sign_negation_witness :
    cmp (fun _ _ _ => 0) (mkKey [0x01, 0x02]) (mkKey [0x01, 0x02, 0x03]) = -1 ∧
    cmp (fun _ _ _ => 0) (mkKey [0x01, 0x02, 0x03]) (mkKey [0x01, 0x02]) = 1 ∧
    cmp (fun _ _ _ => 0) (mkKey [0x01, 0x02]) (mkKey [0x01, 0x02, 0x03]) =
      - cmp (fun _ _ _ => 0) (mkKey [0x01, 0x02, 0x03]) (mkKey [0x01, 0x02]) :=
  ⟨by decide, by decide,
    (cmp_sign_negation (fun _ _ _ => 0) (mkKey [0x01, 0x02]) (mkKey [0x01, 0x02, 0x03])).2.2.2
      (by decide)⟩

/-- C6 fails as stated: with a C library whose `memcmp` returns `65538` for the
bytes `[1, 5]` against `[1, 3]` and `-2` for `[1, 3]` against `[1, 5]`, both of
the sign the standard asks for, `cmp` of the keys `[1, 5]` and `[1, 3]` is
`65538` and `cmp` of `[1, 3]` and `[1, 5]` is `-2`, which is not its negation. -/
theorem cmp_exact_negation_fails :
    memcmp (fun s1 _ _ => if s1 1 = 5 then 65537 else 1)
      (mkKey [1, 5]).value (mkKey [1, 3]).value 2 = 65538 ∧
    memcmp (fun s1 _ _ => if s1 1 = 5 then 65537 else 1)
      (mkKey [1, 3]).value (mkKey [1, 5]).value 2 = -2 ∧
    cmp (fun s1 _ _ => if s1 1 = 5 then 65537 else 1) (mkKey [1, 5]) (mkKey [1, 3]) = 65538 ∧
    cmp (fun s1 _ _ => if s1 1 = 5 then 65537 else 1) (mkKey [1, 3]) (mkKey [1, 5]) = -2 ∧
    cmp (fun s1 _ _ => if s1 1 = 5 then 65537 else 1) (mkKey [1, 5]) (mkKey [1, 3]) ≠
      - cmp (fun s1 _ _ => if s1 1 = 5 then 65537 else 1) (mkKey [1, 3]) (mkKey [1, 5]) := by
  decide

/-- C7: `cmp` is transitive: if `cmp a b ≤ 0` and `cmp b c ≤ 0` then
`cmp a c ≤ 0`. -/
theorem cmp_transitive (mag : MemcmpMag) (a b c : ods_key_value)
    (hab : cmp mag a b ≤ 0) (hbc : cmp mag b c ≤ 0) : cmp mag a c ≤ 0 := by
  have h1 : ¬ lex_lt b.bytes a.bytes := fun h => by
    have := (cmp_pos_iff mag a b).2 h
    omega
  have h2 : ¬ lex_lt c.bytes b.bytes := fun h => by
    have := (cmp_pos_iff mag b c).2 h
    omega
  have h3 : ¬ lex_lt c.bytes a.bytes := by
    intro hca
    rcases lex_lt_total a.bytes b.bytes with t | t | t
    · exact h2 (lex_lt_trans _ _ _ hca t)
    · rw [t] at hca
      exact h2 hca
    · exact h1 t
  have := mt (cmp_pos_iff mag a c).1 h3
  omega

/-- C7, at the keys `[1]`, `[1, 2]` and `[2]`. -/
theorem cmp_transitive_witness :
    cmp (fun _ _ _ => 0) (mkKey [1]) (mkKey [1, 2]) ≤ 0 ∧
    cmp (fun _ _ _ => 0) (mkKey [1, 2]) (mkKey [2]) ≤ 0 ∧
    cmp (fun _ _ _ => 0) (mkKey [1]) (mkKey [2]) ≤ 0 :=
  ⟨by decide, by decide,
    cmp_transitive (fun _ _ _ => 0) (mkKey [1]) (mkKey [1, 2]) (mkKey [2])
      (by decide) (by decide)⟩

/-- C8: `cmp a b = 0` exactly when `a` and `b` have the same length and the same
bytes; so `cmp a a = 0`, and two keys that differ in length or in a byte never
compare equal. -/
theorem cmp_zero_iff_same_key (mag : MemcmpMag) (a b : ods_key_value) :
    (cmp mag a b = 0 ↔ a.len = b.len ∧ ∀ i, i < a.len → a.value i = b.value i) ∧
    cmp mag a a = 0 ∧
    (a.bytes ≠ b.bytes → cmp mag a b ≠ 0) := by
  have hb : ∀ n, Mem.read a.value 0 n = Mem.read b.value 0 n ↔
      ∀ i, i < n → a.value i = b.value i := by
    intro n
    rw [Mem.read_eq_iff]
    simp
  refine ⟨?_, (cmp_eq_zero_iff mag a a).2 ⟨rfl, rfl⟩, fun hne h0 =>
    hne ((cmp_eq_zero_iff mag a b).1 h0).2⟩
  rw [cmp_eq_zero_iff]
  constructor
  · rintro ⟨hl, hv⟩
    refine ⟨hl, (hb a.len).1 ?_⟩
    simpa [ods_key_value.bytes, hl] using hv
  · rintro ⟨hl, hv⟩
    refine ⟨hl, ?_⟩
    simp only [ods_key_value.bytes, ← hl]
    exact (hb a.len).2 hv

/-! ## Lemmas on `snprintf` and on the loop of `to_str` -/

theorem Mem.writeList_apply (m : Mem) (s : Nat) (cs : List Nat) (j : Nat) :
    Mem.writeList m s cs j =
      if s ≤ j ∧ j < s + cs.length then cs.getD (j - s) 0 else m j := by
  induction cs generalizing m s with
  | nil =>
    rw [Mem.writeList, if_neg]
    simp only [List.length_nil]
    omega
  | cons c cs ih =>
    rw [Mem.writeList, ih]
    by_cases h1 : s + 1 ≤ j ∧ j < s + 1 + cs.length
    · have h2 : s ≤ j ∧ j < s + (c :: cs).length := by
        simp only [List.length_cons]; omega
      rw [if_pos h1, if_pos h2]
      have e : j - s = (j - (s + 1)) + 1 := by omega
      rw [e, List.getD_cons_succ]
    · rw [if_neg h1]
      by_cases h3 : j = s
      · subst h3
        simp [Mem.write]
      · have h2 : ¬ (s ≤ j ∧ j < s + (c :: cs).length) := by
          simp only [List.length_cons]; omega
        rw [if_neg h2]
        simp [Mem.write, h3]

theorem Mem.writeList_append (m : Mem) (s : Nat) (cs ds : List Nat) :
    Mem.writeList m s (cs ++ ds) = Mem.writeList (Mem.writeList m s cs) (s + cs.length) ds := by
  induction cs generalizing m s with
  | nil => simp [Mem.writeList]
  | cons c cs ih =>
    rw [List.cons_append, Mem.writeList, Mem.writeList, ih, List.length_cons,
      show s + 1 + cs.length = s + (cs.length + 1) by omega]

theorem Mem.write_write (m : Mem) (a x y : Nat) :
    (m.write a x).write a y = m.write a y := by
  funext j
  by_cases h : j = a <;> simp [Mem.write, h]

theorem fmt_02hhX_length (v : Nat) : (fmt_02hhX v).length = 2 := rfl

theorem hex_string_length (kv : ods_key_value) (i n : Nat) :
    (hex_string kv i n).length = 2 * n := by
  induction n generalizing i with
  | zero => rfl
  | succ n ih => simp [hex_string, ih, fmt_02hhX_length]; omega

theorem size_t_sub_two (len : Nat) (h : len < SIZE_MOD) :
    size_t_of_int ((len : Int) - ((2 : Nat) : Int)) =
      if 2 ≤ len then len - 2 else len + SIZE_MOD - 2 := by
  simp only [size_t_of_int, SIZE_MOD] at *
  split <;> omega

theorem snprintf_02hhX_fst (m : Mem) (s n v : Nat) :
    (snprintf_02hhX m s n v).1 = ((2 : Nat) : Int) := rfl

theorem snprintf_02hhX_snd (m : Mem) (s n v : Nat) :
    (snprintf_02hhX m s n v).2 =
      if n = 0 then m else Mem.writeList m s ((fmt_02hhX v).take (n - 1) ++ [0]) := rfl

/-- One iteration of the loop of `to_str`. -/
theorem to_str_loop_succ (kv : ods_key_value) (n i s len : Nat) (m : Mem)
    (h : len < SIZE_MOD) :
    to_str_loop kv (n + 1) i s len m =
      to_str_loop kv n (i + 1) (s + 2) (if 2 ≤ len then len - 2 else len + SIZE_MOD - 2)
        (if len = 0 then m
          else Mem.writeList m s ((fmt_02hhX (kv.value i)).take (len - 1) ++ [0])) := by
  rw [to_str_loop]
  simp only [snprintf_02hhX_fst, snprintf_02hhX_snd, size_t_sub_two len h, Int.toNat_ofNat]

/-- The loop of `to_str` writes nothing below the write pointer. -/
theorem to_str_loop_below (kv : ods_key_value) (n i s len : Nat) (m : Mem)
    (h : len < SIZE_MOD) (p : Nat) (hp : p < s) :
    to_str_loop kv n i s len m p = m p := by
  induction n generalizing i s len m with
  | zero => rfl
  | succ n ih =>
    rw [to_str_loop_succ kv n i s len m h]
    rw [ih (i + 1) (s + 2) _ _ (by simp only [SIZE_MOD] at *; split <;> omega) (by omega)]
    split
    · rfl
    · rw [Mem.writeList_apply, if_neg (by omega)]

/-- With room for the whole rendering and its terminator, the loop of `to_str`
stores exactly the rendering followed by a terminating zero. -/
theorem to_str_loop_fits (kv : ods_key_value) (n i s len : Nat) (m : Mem)
    (h : len < SIZE_MOD) (hcap : 2 * (n + 1) + 1 ≤ len) :
    to_str_loop kv (n + 1) i s len m =
      Mem.writeList m s (hex_string kv i (n + 1) ++ [0]) := by
  induction n generalizing i s len m with
  | zero =>
    rw [to_str_loop_succ kv 0 i s len m h, to_str_loop, if_neg (show ¬ len = 0 by omega)]
    have e : (fmt_02hhX (kv.value i)).take (len - 1) = fmt_02hhX (kv.value i) :=
      List.take_of_length_le (by rw [fmt_02hhX_length]; omega)
    simp [e, hex_string]
  | succ n ih =>
    rw [to_str_loop_succ kv (n + 1) i s len m h, if_pos (show 2 ≤ len by omega),
      if_neg (show ¬ len = 0 by omega)]
    rw [ih (i + 1) (s + 2) (len - 2) _ (by omega) (by omega)]
    have e : (fmt_02hhX (kv.value i)).take (len - 1) = fmt_02hhX (kv.value i) :=
      List.take_of_length_le (by rw [fmt_02hhX_length]; omega)
    rw [e]
    have hr : Mem.writeList m s (hex_string kv i (n + 1 + 1) ++ [0]) =
        Mem.writeList (Mem.writeList m s (fmt_02hhX (kv.value i))) (s + 2)
          (hex_string kv (i + 1) (n + 1) ++ [0]) := by
      rw [hex_string, List.append_assoc, Mem.writeList_append, fmt_02hhX_length]
    have hl : Mem.writeList m s (fmt_02hhX (kv.value i) ++ [0]) =
        (Mem.writeList m s (fmt_02hhX (kv.value i))).write (s + 2) 0 := by
      rw [Mem.writeList_append, fmt_02hhX_length]
      rfl
    rw [hr, hl]
    generalize Mem.writeList m s (fmt_02hhX (kv.value i)) = m1
    rw [hex_string]
    simp only [fmt_02hhX, List.cons_append, List.nil_append, Mem.writeList, Mem.write_write]

theorem hex_string_getD_lt (kv : ods_key_value) (i n p : Nat) (hp : p < 2) :
    (hex_string kv i (n + 1)).getD p 0 = (fmt_02hhX (kv.value i)).getD p 0 := by
  rw [hex_string]
  interval_cases p <;> simp [fmt_02hhX]

theorem hex_string_getD_ge (kv : ods_key_value) (i n p : Nat) :
    (hex_string kv i (n + 1)).getD (p + 2) 0 = (hex_string kv (i + 1) n).getD p 0 := by
  rw [hex_string]
  simp [fmt_02hhX]

/-- With a capacity that is not zero and too small for the rendering and its
terminator, the loop of `to_str` leaves in the destination the rendering
truncated to `len - 1` characters, followed by a terminating zero. -/
theorem to_str_loop_truncated (kv : ods_key_value) (n i s len : Nat) (m : Mem)
    (h : len < SIZE_MOD) (h0 : 0 < len) (hcap : len < 2 * n + 1) :
    (∀ p, p + 1 < len →
      to_str_loop kv n i s len m (s + p) = (hex_string kv i n).getD p 0) ∧
    to_str_loop kv n i s len m (s + (len - 1)) = 0 := by
  induction n generalizing i s len m with
  | zero => omega
  | succ n ih =>
    rw [to_str_loop_succ kv n i s len m h, if_neg (show ¬ len = 0 by omega)]
    have hlen' : (if 2 ≤ len then len - 2 else len + SIZE_MOD - 2) < SIZE_MOD := by
      simp only [SIZE_MOD] at *; split <;> omega
    by_cases h3 : 3 ≤ len
    · rw [if_pos (show 2 ≤ len by omega)]
      have e : (fmt_02hhX (kv.value i)).take (len - 1) = fmt_02hhX (kv.value i) :=
        List.take_of_length_le (by rw [fmt_02hhX_length]; omega)
      rw [e]
      have IH := ih (i + 1) (s + 2) (len - 2)
        (Mem.writeList m s (fmt_02hhX (kv.value i) ++ [0])) (by omega) (by omega) (by omega)
      refine ⟨fun p hp => ?_, ?_⟩
      · by_cases hp2 : p < 2
        · rw [to_str_loop_below kv n (i + 1) (s + 2) (len - 2) _ (by omega) (s + p) (by omega),
            Mem.writeList_apply, if_pos (by simp [fmt_02hhX_length]; omega),
            hex_string_getD_lt kv i n p hp2]
          have e2 : s + p - s = p := by omega
          rw [e2]
          interval_cases p <;> simp [fmt_02hhX]
        · obtain ⟨q, rfl⟩ : ∃ q, p = q + 2 := ⟨p - 2, by omega⟩
          rw [hex_string_getD_ge, ← IH.1 q (by omega)]
          rw [show s + (q + 2) = s + 2 + q by omega]
      · have := IH.2
        rwa [show s + 2 + (len - 2 - 1) = s + (len - 1) by omega] at this
    · have hb : ∀ p, p < 2 →
          to_str_loop kv n (i + 1) (s + 2) (if 2 ≤ len then len - 2 else len + SIZE_MOD - 2)
            (Mem.writeList m s ((fmt_02hhX (kv.value i)).take (len - 1) ++ [0])) (s + p) =
          Mem.writeList m s ((fmt_02hhX (kv.value i)).take (len - 1) ++ [0]) (s + p) :=
        fun p hp => to_str_loop_below kv n (i + 1) (s + 2) _ _ hlen' (s + p) (by omega)
      have hl : len = 1 ∨ len = 2 := by omega
      refine ⟨fun p hp => ?_, ?_⟩
      · have hp0 : p = 0 := by omega
        have hl2 : len = 2 := by omega
        subst hp0 hl2
        rw [hb 0 (by omega), Mem.writeList_apply, hex_string_getD_lt kv i n 0 (by omega)]
        simp [fmt_02hhX]
      · rw [hb (len - 1) (by omega), Mem.writeList_apply]
        rcases hl with hl | hl <;> subst hl <;> simp [fmt_02hhX]

theorem hex_digit_range (d : Nat) (h : d < 16) :
    (48 ≤ hex_digit d ∧ hex_digit d ≤ 57) ∨ (65 ≤ hex_digit d ∧ hex_digit d ≤ 70) := by
  unfold hex_digit
  split <;> omega

theorem hex_string_getD_even (kv : ods_key_value) (i n j : Nat) (hj : j < n) :
    (hex_string kv i n).getD (2 * j) 0 = hex_digit (kv.value (i + j) % 256 / 16) ∧
    (hex_string kv i n).getD (2 * j + 1) 0 = hex_digit (kv.value (i + j) % 256 % 16) := by
  induction n generalizing i j with
  | zero => omega
  | succ n ih =>
    cases j with
    | zero =>
      rw [hex_string]
      simp [fmt_02hhX]
    | succ j =>
      have := ih (i + 1) j (by omega)
      rw [show 2 * (j + 1) = 2 * j + 2 by omega, show 2 * j + 2 + 1 = 2 * j + 1 + 2 by omega,
        hex_string_getD_ge, hex_string_getD_ge, show i + (j + 1) = i + 1 + j by omega]
      exact this

/-! ## The rendering `to_str` -/

/-- C4: for a key of bytes and a destination with room for the whole rendering
and its terminator, `to_str` stores, for each byte index `i` below the length,
the two uppercase hexadecimal digits of byte `i`, high nibble first, at the
offsets `2 * i` and `2 * i + 1` of the destination: in byte order, without
separator or prefix, each digit one of `0`-`9`, `A`-`F`. -/
theorem to_str_hex_digits (kv : ods_key_value) (m : Mem) (str len : Nat)
    (hb : ∀ i, i < kv.len → kv.value i < 256)
    (hlen : len < SIZE_MOD) (hcap : 2 * kv.len + 1 ≤ len) (i : Nat) (hi : i < kv.len) :
    (to_str kv m str len).2 (str + 2 * i) = hex_digit (kv.value i / 16) ∧
    (to_str kv m str len).2 (str + 2 * i + 1) = hex_digit (kv.value i % 16) ∧
    ((48 ≤ hex_digit (kv.value i / 16) ∧ hex_digit (kv.value i / 16) ≤ 57) ∨
      (65 ≤ hex_digit (kv.value i / 16) ∧ hex_digit (kv.value i / 16) ≤ 70)) ∧
    ((48 ≤ hex_digit (kv.value i % 16) ∧ hex_digit (kv.value i % 16) ≤ 57) ∨
      (65 ≤ hex_digit (kv.value i % 16) ∧ hex_digit (kv.value i % 16) ≤ 70)) := by
  have hv := hb i hi
  obtain ⟨n, hn⟩ : ∃ n, kv.len = n + 1 := ⟨kv.len - 1, by omega⟩
  have hm : (to_str kv m str len).2 =
      Mem.writeList m str (hex_string kv 0 kv.len ++ [0]) := by
    simp only [to_str]
    rw [hn]
    exact to_str_loop_fits kv n 0 str len m hlen (by omega)
  have hd := hex_string_getD_even kv 0 kv.len i hi
  rw [Nat.zero_add, Nat.mod_eq_of_lt hv] at hd
  have hl := hex_string_length kv 0 kv.len
  refine ⟨?_, ?_, hex_digit_range _ (by omega), hex_digit_range _ (by omega)⟩
  · rw [hm, Mem.writeList_apply, if_pos (by simp [hl]; omega),
      show str + 2 * i - str = 2 * i by omega, List.getD_append _ _ _ _ (by omega)]
    exact hd.1
  · rw [hm, Mem.writeList_apply, if_pos (by simp [hl]; omega),
      show str + 2 * i + 1 - str = 2 * i + 1 by omega, List.getD_append _ _ _ _ (by omega)]
    exact hd.2

/-- C4, at the key `[0xAB, 0x01]` and a destination of five characters: the
destination then holds the string `AB01`. -/
theorem to_str_hex_digits_witness :
    ((to_str (mkKey [0xAB, 0x01]) (fun _ => 255) 0 5).2 (0 + 2 * 1) = hex_digit (0x01 / 16) ∧
      (to_str (mkKey [0xAB, 0x01]) (fun _ => 255) 0 5).2 (0 + 2 * 1 + 1) = hex_digit (0x01 % 16)) ∧
    Mem.read (to_str (mkKey [0xAB, 0x01]) (fun _ => 255) 0 5).2 0 5 = cstr ("AB01") := by
  have h := to_str_hex_digits (mkKey [0xAB, 0x01]) (fun _ => 255) 0 5
    (by decide) (by decide) (by decide) 1 (by decide)
  exact ⟨⟨h.1, h.2.1⟩, by decide⟩

/-- C10, as the code has it: `to_str` has no error result. For every key and
every capacity smaller than `str_size` of the key (or than the `2 * len + 1`
characters the rendering and its terminator take) it returns the destination
pointer, and the destination then holds a truncated rendering: the first
`len - 1` characters of the rendering followed by a terminating zero, when the
capacity `len` is not zero; nothing below the destination is written. -/
theorem to_str_small_capacity (kv : ods_key_value) (m : Mem) (str len : Nat)
    (hlen : len < SIZE_MOD) (hsmall : len < str_size kv ∨ len < 2 * kv.len + 1) :
    (to_str kv m str len).1 = str ∧
    (∀ p, p + 1 < len →
      (to_str kv m str len).2 (str + p) = (hex_string kv 0 kv.len).getD p 0) ∧
    (0 < len → (to_str kv m str len).2 (str + (len - 1)) = 0) ∧
    (∀ p, p < str → (to_str kv m str len).2 p = m p) := by
  have hs : str_size kv ≤ kv.len + 1 := by
    simp only [str_size, size_t_of_int, SIZE_MOD]
    omega
  have hcap : len < 2 * kv.len + 1 := by omega
  refine ⟨rfl, fun p hp => ?_, fun h0 => ?_, fun p hp => ?_⟩
  · exact (to_str_loop_truncated kv kv.len 0 str len m hlen (by omega) hcap).1 p hp
  · exact (to_str_loop_truncated kv kv.len 0 str len m hlen h0 hcap).2
  · exact to_str_loop_below kv kv.len 0 str len m hlen p hp

/-- C10 as amended, at the key `[0xAB, 0x01]` and a destination of two characters:
the destination then holds the string `A`. -/
theorem to_str_small_capacity_witness :
    (to_str (mkKey [0xAB, 0x01]) (fun _ => 255) 0 2).1 = 0 ∧
    (to_str (mkKey [0xAB, 0x01]) (fun _ => 255) 0 2).2 (0 + (2 - 1)) = 0 ∧
    Mem.read (to_str (mkKey [0xAB, 0x01]) (fun _ => 255) 0 2).2 0 2 = cstr ("A") := by
  have h := to_str_small_capacity (mkKey [0xAB, 0x01]) (fun _ => 255) 0 2
    (by decide) (Or.inl (by decide))
  exact ⟨h.1, h.2.2.1 (by decide), by decide⟩

/-- C10 fails as stated: for the key `[0xAB, 0x01]`, whose `str_size` is `3`, and a
destination of capacity `1` in a memory filled with `0xFF`, `to_str` returns the
destination pointer like a successful call, and it has stored the characters
`0`, `1` and a terminating zero at the offsets `2`, `3` and `4`, beyond the
capacity. With the capacity `2` it has stored the partial output `A`. -/
theorem to_str_small_capacity_overflow :
    1 < str_size (mkKey [0xAB, 0x01]) ∧
    (to_str (mkKey [0xAB, 0x01]) (fun _ => 255) 0 1).1 = 0 ∧
    Mem.read (fun _ => 255) 0 6 = [255, 255, 255, 255, 255, 255] ∧
    Mem.read (to_str (mkKey [0xAB, 0x01]) (fun _ => 255) 0 1).2 0 6 = [0, 255, 48, 49, 0, 255] ∧
    Mem.read (to_str (mkKey [0xAB, 0x01]) (fun _ => 255) 0 2).2 0 6 = [65, 0, 255, 255, 255, 255] := by
  decide

/-! ## The size query `str_size` -/

/-- C9, on the code: for the key `[0xAB, 0x01]`, of length `2`, `str_size` is `3`,
which is neither `2 * 2 + 1` nor `2 * 2`, while the rendering `to_str` produces
takes four characters and a terminator. -/
theorem str_size_under_reports :
    str_size (mkKey [0xAB, 0x01]) = 3 ∧
    str_size (mkKey [0xAB, 0x01]) ≠ 2 * (mkKey [0xAB, 0x01]).len + 1 ∧
    str_size (mkKey [0xAB, 0x01]) ≠ 2 * (mkKey [0xAB, 0x01]).len ∧
    Mem.read (to_str (mkKey [0xAB, 0x01]) (fun _ => 255) 0 5).2 0 5 = cstr ("AB01") := by
  decide


/-! ## The parser `from_str` -/

theorem sscanf_02hhX_nil (b : Nat) : sscanf_02hhX [] b = none := rfl

theorem from_str_loop_succ (str : List Nat) (junk : Nat → Nat) (fuel i : Nat)
    (kv : ods_key_value) :
    from_str_loop str junk (fuel + 1) i kv =
      match sscanf_02hhX (str.drop (2 * i)) (junk i) with
      | none => none
      | some r =>
        if size_t_of_int r.1 > 0 then
          from_str_loop str junk fuel (i + 1)
            { len := (kv.len + 1) % LEN_MOD, value := kv.value.write kv.len r.2 }
        else some kv := by
  rw [from_str_loop]
  cases sscanf_02hhX (str.drop (2 * i)) (junk i) with
  | none => rfl
  | some r =>
    by_cases hc : size_t_of_int r.1 > 0
    · simp only [hc, if_true]
    · simp only [hc, if_false]

/-- The fuel `from_str` gives its loop is never used up: once the fuel exceeds the
number of characters left in the object, one more unit of it changes nothing. -/
theorem from_str_loop_fuel (str : List Nat) (junk : Nat → Nat) (fuel i : Nat)
    (kv : ods_key_value) (h : str.length < fuel + 2 * i) :
    from_str_loop str junk (fuel + 1) i kv = from_str_loop str junk fuel i kv := by
  induction fuel generalizing i kv with
  | zero =>
    have e : str.drop (2 * i) = [] := List.drop_eq_nil_of_le (by omega)
    rw [from_str_loop_succ, e, sscanf_02hhX_nil]
    rfl
  | succ fuel ih =>
    rw [from_str_loop_succ str junk (fuel + 1), from_str_loop_succ str junk fuel]
    cases sscanf_02hhX (str.drop (2 * i)) (junk i) with
    | none => rfl
    | some r =>
      simp only
      by_cases hc : size_t_of_int r.1 > 0
      · rw [if_pos hc, if_pos hc]
        exact ih (i + 1) _ (by omega)
      · rw [if_neg hc, if_neg hc]

/-- C2, on the code: the key `[0xAB, 0x01]` is rendered as `AB01` into a
destination of five characters. Parsing that destination, `from_str` does not
stop at the terminating zero: the scan there returns `EOF`, which the unsigned
`cnt` holds as a positive number, so a third byte is appended and the next scan
starts behind the terminator, outside the destination (the result `none`).
When the text is followed in its object by the characters `ZZ`, the call
returns a key of length `3`, whose third byte is the indeterminate value of the
local `b`. -/
theorem from_str_to_str_overruns (key : ods_key_value) (junk : Nat → Nat) :
    Mem.read (to_str (mkKey [0xAB, 0x01]) (fun _ => 255) 0 5).2 0 5 = cstr ("AB01") ∧
    from_str key (Mem.read (to_str (mkKey [0xAB, 0x01]) (fun _ => 255) 0 5).2 0 5) junk = none ∧
    (from_str key (cstr ("AB01") ++ cstr ("ZZ")) junk).map (fun r => (r.1, r.2.len, r.2.bytes))
      = some (0, 3, [0xAB, 0x01, junk 2]) := by
  refine ⟨by decide, ?_, ?_⟩
  · rfl
  · rfl

/-- C3, on the code: the text `CZZZ` starts with no pair of hexadecimal digits, so
its longest prefix of such pairs is empty, but `from_str` takes the single
digit `C` for a number and gives the key `[0x0C]` of length `1`. The text `AB`
has the one pair `AB`, but `from_str` also appends a byte for the scan at the
end of the text and scans on behind the terminator: in an object where the text
is followed by `ZZ` it gives a key of length `2`. -/
theorem from_str_not_longest_hex_pairs (key : ods_key_value) (junk : Nat → Nat) :
    hex_pairs_decode (cstr ("CZZZ")) = [] ∧
    (from_str key (cstr ("CZZZ")) junk).map (fun r => (r.2.len, r.2.bytes)) = some (1, [0x0C]) ∧
    hex_pairs_decode (cstr ("AB")) = [0xAB] ∧
    from_str key (cstr ("AB")) junk = none ∧
    (from_str key (cstr ("AB") ++ cstr ("ZZ")) junk).map (fun r => (r.2.len, r.2.bytes))
      = some (2, [0xAB, junk 1]) := by
  refine ⟨by decide, ?_, by decide, ?_, ?_⟩
  · rfl
  · rfl
  · rfl

/-- C12, on the code: the text `AB0` has three hexadecimal digits, so one complete
pair. `from_str` decodes the pair, then takes the trailing single digit `0` for
a number too and appends the byte `0x00`; the read pointer then steps over the
terminating zero. In an object that holds only the text the next scan reads
past its end (`none`); when the text is followed by `ZZ` the call returns the
key `[0xAB, 0x00]` of length `2`. -/
theorem from_str_odd_digits (key : ods_key_value) (junk : Nat → Nat) :
    hex_pairs_decode (cstr ("AB0")) = [0xAB] ∧
    from_str key (cstr ("AB0")) junk = none ∧
    (from_str key (cstr ("AB0") ++ cstr ("ZZ")) junk).map (fun r => (r.2.len, r.2.bytes))
      = some (2, [0xAB, 0x00]) := by
  refine ⟨by decide, ?_, ?_⟩
  · rfl
  · rfl

/-- C13, on the code: the text `ABZZ01` gives the key `[0xAB]` of length `1`. In the
text `AB1ZZZ` the first character that is no hexadecimal digit is at position
`3`, after the one pair `AB`, but `from_str` decodes the single digit `1` as a
second byte. In the text `AB 1ZZ` it is the blank at position `2`, which the
scan skips: again the key `[0xAB, 0x01]` of length `2`. -/
theorem from_str_first_non_hex (key : ods_key_value) (junk : Nat → Nat) :
    (from_str key (cstr ("ABZZ01")) junk).map (fun r => (r.2.len, r.2.bytes))
      = some (1, [0xAB]) ∧
    hex_pairs_decode (cstr ("AB1ZZZ")) = [0xAB] ∧
    (from_str key (cstr ("AB1ZZZ")) junk).map (fun r => (r.2.len, r.2.bytes))
      = some (2, [0xAB, 0x01]) ∧
    hex_pairs_decode (cstr ("AB 1ZZ")) = [0xAB] ∧
    (from_str key (cstr ("AB 1ZZ")) junk).map (fun r => (r.2.len, r.2.bytes))
      = some (2, [0xAB, 0x01]) := by
  refine ⟨?_, by decide, ?_, by decide, ?_⟩
  · rfl
  · rfl
  · rfl

/-- C14, on the code: for the empty text the first scan, at the terminating zero,
returns `EOF`, which the unsigned `cnt` holds as a positive number: a byte is
appended and the next scan starts two characters further. In an object that
holds only the empty text that scan reads past its end (`none`); when the
terminator is followed by `ZZ` the call returns a key of length `1`. -/
theorem from_str_empty_text (key : ods_key_value) (junk : Nat → Nat) :
    size_t_of_int (-1) = 2 ^ 64 - 1 ∧
    sscanf_02hhX (cstr ("")) (junk 0) = some (-1, junk 0) ∧
    from_str key (cstr ("")) junk = none ∧
    (from_str key (cstr ("") ++ cstr ("ZZ")) junk).map (fun r => (r.2.len, r.2.bytes))
      = some (1, [junk 0]) := by
  refine ⟨by decide, ?_, ?_, ?_⟩
  · rfl
  · rfl
  · rfl

/-- C18, on the code: the text `01` has its terminating zero at position `2`.
`from_str` scans at the positions `0`, `2` and `4`: the scan at the terminator
returns `EOF` and a byte is appended for it, and the third scan starts behind
the terminator. In an object that holds only the text that scan reads past its
end (`none`); when the text is followed by `ZZ` the loop ends there, after
three scans, with a key of length `2`. -/
theorem from_str_scans_past_terminator (key : ods_key_value) (junk : Nat → Nat) :
    sscanf_02hhX ((cstr ("01")).drop 2) (junk 1) = some (-1, junk 1) ∧
    from_str key (cstr ("01")) junk = none ∧
    sscanf_02hhX ((cstr ("01") ++ cstr ("ZZ")).drop 4) (junk 2) = some (0, junk 2) ∧
    (from_str key (cstr ("01") ++ cstr ("ZZ")) junk).map (fun r => (r.2.len, r.2.bytes))
      = some (2, [0x01, junk 1]) := by
  refine ⟨?_, ?_, ?_, ?_⟩
  · rfl
  · rfl
  · rfl
  · rfl

/-! ## `str_size` and `to_str` together, the empty key, `size` -/

/-- C11, on the code: for the key `[0xAB, 0x01]` `str_size` is `3`, and `to_str`
with that capacity leaves the string `AB`, two of the four characters of the
rendering. For the key `[1, 2, 3, 4]` `str_size` is `5`, and `to_str` with that
capacity, in a memory filled with `0xFF`, stores `0102` and a terminator at the
offsets `0` to `4`, and then `04` and a terminator at the offsets `6` to `8`,
beyond the capacity. -/
theorem to_str_at_str_size :
    str_size (mkKey [0xAB, 0x01]) = 3 ∧
    Mem.read (to_str (mkKey [0xAB, 0x01]) (fun _ => 255) 0
      (str_size (mkKey [0xAB, 0x01]))).2 0 5 = cstr ("AB") ++ [255, 255] ∧
    str_size (mkKey [1, 2, 3, 4]) = 5 ∧
    Mem.read (to_str (mkKey [1, 2, 3, 4]) (fun _ => 255) 0
      (str_size (mkKey [1, 2, 3, 4]))).2 0 10 = cstr ("0102") ++ [255] ++ cstr ("04") ++ [255] := by
  decide

/-- C15, on the code: for the empty key `to_str` does not run its loop, so it
stores no terminator: in a destination that held the string `XY` the returned
string is still `XY`, of two characters, not the empty string. -/
theorem to_str_no_terminator_for_empty_key :
    (mkKey []).len = 0 ∧
    c_strlen_is (Mem.ofList (cstr ("XY"))) 0 2 ∧
    (to_str (mkKey []) (Mem.ofList (cstr ("XY"))) 0 8).1 = 0 ∧
    c_strlen_is (to_str (mkKey []) (Mem.ofList (cstr ("XY"))) 0 8).2 0 2 ∧
    ¬ c_strlen_is (to_str (mkKey []) (Mem.ofList (cstr ("XY"))) 0 8).2 0 (2 * (mkKey []).len) := by
  decide

/-- C20: for a key of length zero, any destination and any capacity, `to_str`
returns the destination pointer and leaves the memory as it was: it stores
nothing, not even a terminating zero. -/
theorem to_str_empty_key_writes_nothing (kv : ods_key_value) (m : Mem) (str len : Nat)
    (h : kv.len = 0) : to_str kv m str len = (str, m) := by
  simp only [to_str, h, to_str_loop]

/-- C20, at the empty key and a destination that holds the string `XY`. -/
theorem to_str_empty_key_writes_nothing_witness :
    to_str (mkKey []) (Mem.ofList (cstr ("XY"))) 0 8 = (0, Mem.ofList (cstr ("XY"))) :=
  to_str_empty_key_writes_nothing (mkKey []) (Mem.ofList (cstr ("XY"))) 0 8 rfl

/-- C16: `size` takes no argument and is `-1` converted to `size_t`, the number
`2 ^ 64 - 1` with all bits set (as `-1` converted to `w` bits is `2 ^ w - 1` for
every width `w`); no value `n` the 16 bit length field of a key can hold equals
it. -/
theorem size_is_sentinel (n : Nat) (h : n < LEN_MOD) :
    size = 2 ^ 64 - 1 ∧ size = SIZE_MOD - 1 ∧
    (∀ w : Nat, (((-1 : Int)) % ((2 ^ w : Nat) : Int)).toNat = 2 ^ w - 1) ∧
    n ≠ size := by
  have hs : size = 2 ^ 64 - 1 := by decide
  refine ⟨hs, by decide, fun w => ?_, ?_⟩
  · have hp : 0 < 2 ^ w := Nat.pow_pos (by decide)
    generalize 2 ^ w = k at hp
    have e : (-1 : Int) = ((k : Int) - 1) + (-1) * (k : Int) := by ring
    rw [e, Int.add_mul_emod_self, Int.emod_eq_of_lt (by omega) (by omega)]
    omega
  · rw [hs]
    simp only [LEN_MOD] at h
    omega

/-- C16, at the length `2` of the key `[0xAB, 0x01]`. -/
theorem size_is_sentinel_witness : (mkKey [0xAB, 0x01]).len ≠ size :=
  (size_is_sentinel (mkKey [0xAB, 0x01]).len (by decide)).2.2.2

/-! ## `from_str` and the previous content of the key -/

/-- Two runs of the loop of `from_str` that start from keys with the same length
and the same bytes below it end alike. -/
theorem from_str_loop_same (str : List Nat) (junk : Nat → Nat) (fuel i : Nat)
    (k1 k2 : ods_key_value) (hl : k1.len = k2.len)
    (hv : ∀ j, j < k1.len → k1.value j = k2.value j) :
    (from_str_loop str junk fuel i k1).map (fun k => (k.len, k.bytes)) =
      (from_str_loop str junk fuel i k2).map (fun k => (k.len, k.bytes)) := by
  induction fuel generalizing i k1 k2 with
  | zero => rfl
  | succ fuel ih =>
    rw [from_str_loop_succ, from_str_loop_succ]
    cases sscanf_02hhX (str.drop (2 * i)) (junk i) with
    | none => rfl
    | some r =>
      simp only
      by_cases hc : size_t_of_int r.1 > 0
      · rw [if_pos hc, if_pos hc]
        apply ih
        · simp only [hl]
        · intro j hj
          simp only at hj
          have hle : (k1.len + 1) % LEN_MOD ≤ k1.len + 1 := Nat.mod_le _ _
          simp only [Mem.write, ← hl]
          by_cases hjl : j = k1.len
          · simp [hjl]
          · simp only [hjl, if_false]
            exact hv j (by omega)
      · rw [if_neg hc, if_neg hc]
        simp only [Option.map_some', Option.some.injEq, Prod.mk.injEq]
        refine ⟨hl, ?_⟩
        simp only [ods_key_value.bytes, ← hl]
        rw [Mem.read_eq_iff]
        intro j hj
        simpa using hv j hj

/-- C17: the result of `from_str` does not depend on what the key held before: for
every text (with the same indeterminate values of the local `b`) and any two
keys `k1` and `k2`, the two calls either both read past the end of the object
or both return, with the same result, the same length of the key and the same
bytes below that length. The old content is overwritten: parsing `ABZZ01` into
the key `[1, 2, 3]` leaves the key `[0xAB]`. -/
theorem from_str_independent_of_old_key (k1 k2 : ods_key_value) (str : List Nat)
    (junk : Nat → Nat) :
    (from_str k1 str junk).map (fun r => (r.1, r.2.len, r.2.bytes)) =
      (from_str k2 str junk).map (fun r => (r.1, r.2.len, r.2.bytes)) ∧
    (from_str (mkKey [1, 2, 3]) (cstr ("ABZZ01")) junk).map (fun r => (r.1, r.2.len, r.2.bytes))
      = some (0, 1, [0xAB]) := by
  refine ⟨?_, rfl⟩
  have h := from_str_loop_same str junk (str.length + 1) 0
    { k1 with len := 0 } { k2 with len := 0 } rfl (fun j hj => absurd hj (Nat.not_lt_zero j))
  simp only [from_str, Option.map_map]
  have e : ∀ o : Option ods_key_value,
      o.map ((fun r : Int × ods_key_value => (r.1, r.2.len, r.2.bytes)) ∘ fun k => ((0 : Int), k))
        = (o.map (fun k => (k.len, k.bytes))).map (fun q => ((0 : Int), q.1, q.2)) := by
    intro o
    cases o <;> rfl
  rw [e, e, h]

/-! ## The order of the renderings -/

theorem hex_digit_lt_iff (d e : Nat) (hd : d < 16) (he : e < 16) :
    hex_digit d < hex_digit e ↔ d < e := by
  unfold hex_digit
  split <;> split <;> omega

theorem hex_digit_eq_iff (d e : Nat) (hd : d < 16) (he : e < 16) :
    hex_digit d = hex_digit e ↔ d = e := by
  unfold hex_digit
  split <;> split <;> omega

/-- The characters of the renderings of two byte sequences are in the same
lexicographic order as the bytes. -/
theorem hex_string_lex_iff (a b : ods_key_value) (i la lb : Nat)
    (ha : ∀ j, a.value j < 256) (hb : ∀ j, b.value j < 256) :
    lex_lt (hex_string a i la) (hex_string b i lb) ↔
      lex_lt (Mem.read a.value i la) (Mem.read b.value i lb) := by
  induction la generalizing i lb with
  | zero =>
    cases lb with
    | zero => simp [hex_string, Mem.read, lex_lt]
    | succ lb => simp [hex_string, fmt_02hhX, Mem.read, lex_lt]
  | succ la ih =>
    cases lb with
    | zero => simp [hex_string, fmt_02hhX, Mem.read, lex_lt]
    | succ lb =>
      have hx := ha i
      have hy := hb i
      simp only [hex_string, fmt_02hhX, Mem.read, List.cons_append, List.nil_append, lex_lt,
        List.append_eq, ih (i + 1) lb, Nat.mod_eq_of_lt hx, Nat.mod_eq_of_lt hy]
      rw [hex_digit_lt_iff _ _ (by omega) (by omega), hex_digit_eq_iff _ _ (by omega) (by omega),
        hex_digit_lt_iff _ _ (by omega) (by omega), hex_digit_eq_iff _ _ (by omega) (by omega)]
      by_cases hP : lex_lt (Mem.read a.value (i + 1) la) (Mem.read b.value (i + 1) lb)
      · simp only [hP, and_true]
        omega
      · simp only [hP, and_false, or_false]
        omega

theorem hex_string_ne_zero (kv : ods_key_value) (i n : Nat) :
    ∀ c, c ∈ hex_string kv i n → c ≠ 0 := by
  induction n generalizing i with
  | zero => simp [hex_string]
  | succ n ih =>
    intro c hc
    simp only [hex_string, fmt_02hhX, List.cons_append, List.nil_append, List.mem_cons] at hc
    rcases hc with hc | hc | hc
    · rw [hc]; unfold hex_digit; split <;> omega
    · rw [hc]; unfold hex_digit; split <;> omega
    · exact ih (i + 1) c hc

/-- The function `strcmp` orders two strings of characters as `lex_lt` does. -/
theorem strcmp_at_lex (m1 m2 : Mem) (l1 l2 : List Nat) (s1 s2 fuel : Nat)
    (h1 : ∀ p, p < l1.length + 1 → m1 (s1 + p) = (l1 ++ [0]).getD p 0)
    (h2 : ∀ p, p < l2.length + 1 → m2 (s2 + p) = (l2 ++ [0]).getD p 0)
    (n1 : ∀ c, c ∈ l1 → c ≠ 0) (n2 : ∀ c, c ∈ l2 → c ≠ 0)
    (hf : l1.length < fuel ∨ l2.length < fuel) :
    ∃ r, strcmp_at m1 m2 s1 s2 fuel = some r ∧
      (r < 0 ↔ lex_lt l1 l2) ∧ (0 < r ↔ lex_lt l2 l1) := by
  induction l1 generalizing l2 s1 s2 fuel with
  | nil =>
    obtain ⟨f, rfl⟩ : ∃ f, fuel = f + 1 := ⟨fuel - 1, by rcases hf with h | h <;> omega⟩
    have e1 : m1 s1 = 0 := by simpa using h1 0 (by simp)
    cases l2 with
    | nil =>
      have e2 : m2 s2 = 0 := by simpa using h2 0 (by simp)
      exact ⟨0, by simp [strcmp_at, e1, e2], by simp [lex_lt], by simp [lex_lt]⟩
    | cons y ys =>
      have e2 : m2 s2 = y := by simpa using h2 0 (by simp)
      have hy : y ≠ 0 := n2 y (by simp)
      refine ⟨(0 : Int) - (y : Int), ?_, ?_, ?_⟩
      · have hne : ¬ (0 = y) := fun e => hy e.symm
        simp [strcmp_at, e1, e2, hne]
      · simp only [lex_lt, iff_true]; omega
      · simp only [lex_lt, iff_false]; omega
  | cons x xs ih =>
    obtain ⟨f, rfl⟩ : ∃ f, fuel = f + 1 := ⟨fuel - 1, by rcases hf with h | h <;> omega⟩
    have e1 : m1 s1 = x := by simpa using h1 0 (by simp)
    have hx : x ≠ 0 := n1 x (by simp)
    cases l2 with
    | nil =>
      have e2 : m2 s2 = 0 := by simpa using h2 0 (by simp)
      refine ⟨(x : Int) - (0 : Int), ?_, ?_, ?_⟩
      · simp [strcmp_at, e1, e2, hx]
      · simp only [lex_lt, iff_false]; omega
      · simp only [lex_lt, iff_true]; omega
    | cons y ys =>
      have e2 : m2 s2 = y := by simpa using h2 0 (by simp)
      by_cases hxy : x = y
      · subst hxy
        have h1' : ∀ p, p < xs.length + 1 → m1 (s1 + 1 + p) = (xs ++ [0]).getD p 0 := by
          intro p hp
          have := h1 (p + 1) (by simp; omega)
          rw [show s1 + (p + 1) = s1 + 1 + p by omega] at this
          simpa using this
        have h2' : ∀ p, p < ys.length + 1 → m2 (s2 + 1 + p) = (ys ++ [0]).getD p 0 := by
          intro p hp
          have := h2 (p + 1) (by simp; omega)
          rw [show s2 + (p + 1) = s2 + 1 + p by omega] at this
          simpa using this
        obtain ⟨r, hr, hlt, hgt⟩ := ih ys (s1 + 1) (s2 + 1) f h1' h2'
          (fun c hc => n1 c (by simp [hc])) (fun c hc => n2 c (by simp [hc]))
          (by simp only [List.length_cons] at hf; omega)
        refine ⟨r, ?_, ?_, ?_⟩
        · simp [strcmp_at, e1, e2, hx, hr]
        · simp only [lex_lt, lt_self_iff_false, true_and, false_or]; exact hlt
        · simp only [lex_lt, lt_self_iff_false, true_and, false_or]; exact hgt
      · refine ⟨(x : Int) - (y : Int), ?_, ?_, ?_⟩
        · simp [strcmp_at, e1, e2, hxy]
        · have hyx : ¬ y = x := fun e => hxy e.symm
          simp only [lex_lt, hxy, false_and, or_false]; omega
        · have hyx : ¬ y = x := fun e => hxy e.symm
          simp only [lex_lt, hyx, false_and, or_false]; omega

/-- With room for the rendering and its terminator, the destination holds after
`to_str` the rendering followed by a terminating zero, provided the key is not
empty or the destination started with a zero already. -/
theorem to_str_holds_string (kv : ods_key_value) (m : Mem) (str len : Nat)
    (hlen : len < SIZE_MOD) (hcap : 2 * kv.len + 1 ≤ len) (hz : kv.len = 0 → m str = 0)
    (p : Nat) (hp : p < (hex_string kv 0 kv.len).length + 1) :
    (to_str kv m str len).2 (str + p) = (hex_string kv 0 kv.len ++ [0]).getD p 0 := by
  by_cases h0 : kv.len = 0
  · simp only [to_str, h0, to_str_loop, hex_string, List.length_nil] at hp ⊢
    have hp0 : p = 0 := by omega
    subst hp0
    simpa using hz h0
  · obtain ⟨n, hn⟩ : ∃ n, kv.len = n + 1 := ⟨kv.len - 1, by omega⟩
    have hm : (to_str kv m str len).2 =
        Mem.writeList m str (hex_string kv 0 kv.len ++ [0]) := by
      simp only [to_str]
      rw [hn]
      exact to_str_loop_fits kv n 0 str len m hlen (by omega)
    rw [hm, Mem.writeList_apply, if_pos (by simp; omega), show str + p - str = p by omega]

/-- With room for the rendering and its terminator, the string `to_str` leaves has
exactly `2 * len` characters, provided the key is not empty or the destination
started with a zero already. -/
theorem to_str_strlen (kv : ods_key_value) (m : Mem) (str len : Nat)
    (hlen : len < SIZE_MOD) (hcap : 2 * kv.len + 1 ≤ len) (hz : kv.len = 0 → m str = 0) :
    c_strlen_is (to_str kv m str len).2 str (2 * kv.len) := by
  have hl := hex_string_length kv 0 kv.len
  constructor
  · intro p hp
    rw [to_str_holds_string kv m str len hlen hcap hz p (by omega),
      List.getD_append _ _ _ _ (by omega)]
    have hlt : p < (hex_string kv 0 kv.len).length := by omega
    rw [List.getD_eq_getElem _ _ hlt]
    exact hex_string_ne_zero kv 0 kv.len _ (List.getElem_mem _)
  · rw [to_str_holds_string kv m str len hlen hcap hz (2 * kv.len) (by omega),
      List.getD_append_right _ _ _ _ (by omega), hl]
    simp

/-- For keys that are not empty (or destinations that start with a zero),
rendered with room for the terminator, `strcmp` orders the renderings as `cmp`
orders the keys. -/
theorem to_str_preserves_order (mag : MemcmpMag) (a b : ods_key_value) (ma mb : Mem)
    (sa sb ca cb fuel : Nat)
    (ha : ∀ j, a.value j < 256) (hb : ∀ j, b.value j < 256)
    (hca : ca < SIZE_MOD) (hcb : cb < SIZE_MOD)
    (hfa : 2 * a.len + 1 ≤ ca) (hfb : 2 * b.len + 1 ≤ cb)
    (hza : a.len = 0 → ma sa = 0) (hzb : b.len = 0 → mb sb = 0)
    (hf : 2 * a.len < fuel) :
    ∃ r, strcmp_at (to_str a ma sa ca).2 (to_str b mb sb cb).2 sa sb fuel = some r ∧
      (r < 0 ↔ cmp mag a b < 0) ∧ (0 < r ↔ 0 < cmp mag a b) := by
  obtain ⟨r, hr, hlt, hgt⟩ := strcmp_at_lex (to_str a ma sa ca).2 (to_str b mb sb cb).2
    (hex_string a 0 a.len) (hex_string b 0 b.len) sa sb fuel
    (to_str_holds_string a ma sa ca hca hfa hza)
    (to_str_holds_string b mb sb cb hcb hfb hzb)
    (hex_string_ne_zero a 0 a.len) (hex_string_ne_zero b 0 b.len)
    (Or.inl (by rw [hex_string_length]; exact hf))
  refine ⟨r, hr, ?_, ?_⟩
  · rw [hlt, cmp_neg_iff mag]
    exact hex_string_lex_iff a b 0 a.len b.len ha hb
  · rw [hgt, cmp_pos_iff mag]
    exact hex_string_lex_iff b a 0 b.len a.len hb ha

/-- C19, on the code: `cmp` puts the empty key before the key `[0x01]`, but for
the empty key `to_str` stores nothing, so in a destination that held the
string `ZZ` its rendering is still `ZZ`, which `strcmp` puts after the
rendering `01` of the other key. -/
theorem to_str_order_empty_key (mag : MemcmpMag) :
    cmp mag (mkKey []) (mkKey [0x01]) = -1 ∧
    Mem.read (to_str (mkKey []) (Mem.ofList (cstr ("ZZ"))) 0 8).2 0 3 = cstr ("ZZ") ∧
    Mem.read (to_str (mkKey [0x01]) (fun _ => 255) 0 8).2 0 3 = cstr ("01") ∧
    strcmp_at (to_str (mkKey []) (Mem.ofList (cstr ("ZZ"))) 0 8).2
      (to_str (mkKey [0x01]) (fun _ => 255) 0 8).2 0 0 8 = some 42 := by
  exact ⟨rfl, by decide, by decide, by decide⟩

end KeyMemcmp
